import Mathlib

set_option maxHeartbeats 1000000

/-!
Verification of the subdirectory-scoped filesystem view (package subdirfs of
src-d/billy). The Go file subdirfs/subdir.go is embedded shallowly:

* the lexical path helpers it calls from the Go standard library
  (filepath.Clean, filepath.Join, filepath.Base, filepath.IsAbs, filepath.Rel
  with the Unix separator, and strings.Replace with count 1) are modelled
  over `List Char`;
* the billy interfaces the decorator consumes are modelled as structures of
  functions; the optional symlink capability is an `Option`, mirroring the Go
  type assertion `s.underlying.(billy.Symlinker)`;
* fallible operations return `Except Err`; the symlink operations also thread
  an abstract world state so that "the underlying filesystem was not invoked"
  is expressible as the state being returned unchanged.
-/

/-- Splits a character list at each slash, like strings.Split(s, "/"):
the empty list splits to `[[]]`, and every separator opens a new chunk. -/
def splitSlash : List Char → List (List Char)
  | [] => [[]]
  | c :: cs =>
    if c = '/' then [] :: splitSlash cs
    else
      match splitSlash cs with
      | [] => [[c]]
      | s :: rest => (c :: s) :: rest

/-- Joins chunks with a single slash between consecutive chunks
(inverse direction of `splitSlash`). -/
def intercalateSlash : List (List Char) → List Char
  | [] => []
  | [s] => s
  | s :: t :: rest => s ++ '/' :: intercalateSlash (t :: rest)

/-- One step of filepath.Clean's element processing: empty and "." segments
are dropped, ".." pops a regular segment (at the root it is dropped, in a
relative path it accumulates), and every other segment is pushed.  The stack
is kept in reverse order (head = last pushed segment). -/
def cleanPush (rooted : Bool) (stack : List (List Char)) (seg : List Char) :
    List (List Char) :=
  if seg = [] ∨ seg = ['.'] then stack
  else if seg = ['.', '.'] then
    if stack = [] then (cond rooted [] [['.', '.']])
    else if stack.head? = some ['.', '.'] then ['.', '.'] :: stack else stack.tail
  else seg :: stack

/-- Final formatting of filepath.Clean: re-attach the root slash and map the
empty result to "/" (rooted) or "." (relative). -/
def cleanFmt (rooted : Bool) (body : List Char) : List Char :=
  cond rooted (if body = [] then ['/'] else '/' :: body)
    (if body = [] then ['.'] else body)

/-- filepath.Clean (Unix rules) on a character list. -/
def goCleanL (cs : List Char) : List Char :=
  if cs = [] then ['.']
  else
    cleanFmt (decide (cs.head? = some '/'))
      (intercalateSlash
        (((splitSlash cs).foldl (cleanPush (decide (cs.head? = some '/'))) []).reverse))

/-- filepath.Clean on strings. -/
def goClean (p : String) : String := ⟨goCleanL p.data⟩

/-- filepath.Join on character lists: leading empty elements are dropped,
the rest are slash-joined and cleaned; all-empty input gives the empty path. -/
def goJoinL (elems : List (List Char)) : List Char :=
  if (elems.dropWhile fun e => decide (e = [])) = [] then []
  else goCleanL (intercalateSlash (elems.dropWhile fun e => decide (e = [])))

/-- filepath.Join on strings. -/
def goJoin (elems : List String) : String := ⟨goJoinL (elems.map String.data)⟩

/-- Final formatting of filepath.Base: an all-slash path gives "/", otherwise
the collected (reversed) final element is returned. -/
def baseFmt (name : List Char) : List Char :=
  if name = [] then ['/'] else name.reverse

/-- filepath.Base (Unix rules) on a character list: strip trailing slashes,
then keep everything after the last remaining slash. -/
def goBaseL (cs : List Char) : List Char :=
  if cs = [] then ['.']
  else
    baseFmt
      ((cs.reverse.dropWhile fun c => decide (c = '/')).takeWhile
        fun c => decide (c ≠ '/'))

/-- filepath.Base on strings. -/
def goBase (p : String) : String := ⟨goBaseL p.data⟩

/-- filepath.IsAbs (Unix rules): the path starts with the separator. -/
def goIsAbs (p : String) : Bool := decide (p.data.head? = some '/')

/-- strings.Replace(s, pat, new, 1) on character lists: replace the first
occurrence of `pat` (an empty `pat` matches at the start), scanning left to
right. -/
def replaceFirstL (pat new : List Char) : List Char → List Char
  | [] => if pat = [] then new else []
  | c :: rest =>
    if pat.isPrefixOf (c :: rest) then new ++ (c :: rest).drop pat.length
    else c :: replaceFirstL pat new rest

/-- strings.Replace(s, pat, new, 1) on strings. -/
def replaceFirst (s pat new : String) : String := ⟨replaceFirstL pat.data new.data s.data⟩

/-- Error values observable from the scoped filesystem.  `symlinkNotSupported`
is the package-level sentinel ErrSymlinkNotSupported; `relErr` is the error
filepath.Rel synthesizes (carrying its two arguments); the remaining
constructors stand for errors produced by the underlying filesystem. -/
inductive Err where
  | notFound : Err
  | alreadyExists : Err
  | symlinkNotSupported : Err
  | relErr (basepath targpath : String) : Err
  | other (code : Nat) : Err
deriving DecidableEq, Repr

/-- Tail phase of filepath.Rel once the common leading segments are gone:
a remaining ".." base segment is an error, otherwise climb out of the
remaining base segments and descend into the remaining target segments. -/
def mkRel (bs ts : List (List Char)) : Option (List Char) :=
  if bs.head? = some ['.', '.'] then none
  else some (intercalateSlash (List.replicate bs.length ['.', '.'] ++ ts))

/-- Segment phase of filepath.Rel: drop the common leading segments. -/
def relSegs : List (List Char) → List (List Char) → Option (List Char)
  | b :: bs, t :: ts => if b = t then relSegs bs ts else mkRel (b :: bs) (t :: ts)
  | bs, ts => mkRel bs ts

/-- Core of filepath.Rel (Unix rules) on character lists: both paths are
cleaned; equal paths give "."; a base of "." becomes empty; mixing a rooted
with an unrooted path fails; otherwise the answer is assembled from the path
segments. -/
def goRelL (B T : List Char) : Option (List Char) :=
  if goCleanL B = goCleanL T then some ['.']
  else
    if (decide ((if goCleanL B = ['.'] then [] else goCleanL B).head? = some '/') : Bool)
        ≠ (decide ((goCleanL T).head? = some '/') : Bool) then none
    else
      relSegs
        ((splitSlash (if goCleanL B = ['.'] then [] else goCleanL B)).filter
          fun s => decide (s ≠ []))
        ((splitSlash (goCleanL T)).filter fun s => decide (s ≠ []))

/-- filepath.Rel on strings; a failure carries the two arguments, like the
error errors.New builds in Go. -/
def goRelE (basepath targpath : String) : Except Err String :=
  match goRelL basepath.data targpath.data with
  | none => .error (.relErr basepath targpath)
  | some r => .ok ⟨r⟩

/-- billy.FileInfo as consumed and produced by the decorator: the reported
name plus the pass-through attributes (size, mode, modification time,
directory flag, and an abstract `sys` payload). -/
structure FileInfo where
  name : String
  size : Int
  mode : Nat
  modTime : Nat
  isDir : Bool
  sys : Nat
deriving DecidableEq, Repr

/-- billy.File as far as the decorator observes it: the reported filename and
an abstract identity of the underlying open handle. -/
structure File where
  filename : String
  handle : Nat
deriving DecidableEq, Repr

/-- The optional billy.Symlinker capability of the underlying filesystem.
Both operations thread an abstract world state `σ`. -/
structure SymlinkerOps (σ : Type) where
  symlink : String → String → σ → Except Err Unit × σ
  readlink : String → σ → Except Err String × σ

/-- The underlying billy.Filesystem, as a record of the operations
subdirfs delegates to.  `symlinker` is `some` exactly when the Go type
assertion `underlying.(billy.Symlinker)` succeeds. -/
structure Filesystem (σ : Type) where
  create : String → Except Err File
  openf : String → Except Err File
  openFile : String → Nat → Nat → Except Err File
  tempFile : String → String → Except Err File
  rename : String → String → Except Err Unit
  remove : String → Except Err Unit
  mkdirAll : String → Nat → Except Err Unit
  stat : String → Except Err FileInfo
  readDir : String → Except Err (List FileInfo)
  join : List String → String
  symlinker : Option (SymlinkerOps σ)

/-- Modelled from the spec (§4.3): the Scoped Metadata Adapter `newFileInfo`
(its source file is not under src/) wraps an underlying metadata descriptor
and overrides only the reported name; size, mode, modification time,
directory flag and sys pass through unchanged. -/
def newFileInfo (name : String) (fi : FileInfo) : FileInfo :=
  { fi with name := name }

/-- The scoped filesystem `subdirFs`: the underlying filesystem and the
immutable base path. -/
structure SubdirFs (σ : Type) where
  underlying : Filesystem σ
  base : String

/-- Modelled from the spec (§4.4): the Scoped File Handle `newFile` (its
source file is not under src/) wraps an underlying open handle and overrides
only the reported filename; the owner back-reference is only used to resolve
further operations and carries no data observed here. -/
def newFile {σ : Type} (_s : SubdirFs σ) (f : File) (filename : String) : File :=
  { f with filename := filename }

namespace SubdirFs

variable {σ : Type}

/-- New creates a new filesystem wrapping up the given fs, based at the given
subdirectory of the underlying filesystem. -/
def New (fs : Filesystem σ) (base : String) : SubdirFs σ := ⟨fs, base⟩

/-- Base returns the immutable base string. -/
def Base (s : SubdirFs σ) : String := s.base

/-- Join delegates directly to the underlying filesystem's join. -/
def join (s : SubdirFs σ) (elems : List String) : String := s.underlying.join elems

/-- underlyingPath translates a view-relative path: s.Join(s.Base(), filename). -/
def underlyingPath (s : SubdirFs σ) (filename : String) : String :=
  join s [Base s, filename]

/-- Create translates, delegates, and re-labels the handle with the
view-relative name. -/
def create (s : SubdirFs σ) (filename : String) : Except Err File :=
  match s.underlying.create (underlyingPath s filename) with
  | .error e => .error e
  | .ok f => .ok (newFile s f filename)

/-- Open translates, delegates, and re-labels the handle with the
view-relative name. -/
def openf (s : SubdirFs σ) (filename : String) : Except Err File :=
  match s.underlying.openf (underlyingPath s filename) with
  | .error e => .error e
  | .ok f => .ok (newFile s f filename)

/-- OpenFile translates the path, passes flag and mode through verbatim, and
re-labels the handle. -/
def openFile (s : SubdirFs σ) (filename : String) (flag mode : Nat) :
    Except Err File :=
  match s.underlying.openFile (underlyingPath s filename) flag mode with
  | .error e => .error e
  | .ok f => .ok (newFile s f filename)

/-- TempFile translates dir, delegates, and reports
Join(dir, Base(underlying filename)). -/
def tempFile (s : SubdirFs σ) (dir pfx : String) : Except Err File :=
  match s.underlying.tempFile (underlyingPath s dir) pfx with
  | .error e => .error e
  | .ok f => .ok (newFile s f (join s [dir, goBase f.filename]))

/-- Rename translates both paths independently and delegates. -/
def rename (s : SubdirFs σ) (src dst : String) : Except Err Unit :=
  s.underlying.rename (underlyingPath s src) (underlyingPath s dst)

/-- Remove translates and delegates. -/
def remove (s : SubdirFs σ) (path : String) : Except Err Unit :=
  s.underlying.remove (underlyingPath s path)

/-- MkdirAll joins base and path and delegates. -/
def mkdirAll (s : SubdirFs σ) (filename : String) (perm : Nat) : Except Err Unit :=
  s.underlying.mkdirAll (join s [s.base, filename]) perm

/-- Stat translates, delegates, and re-roots the reported name to
filepath.Base of the translated path. -/
def stat (s : SubdirFs σ) (filename : String) : Except Err FileInfo :=
  match s.underlying.stat (underlyingPath s filename) with
  | .error e => .error e
  | .ok fi => .ok (newFileInfo (goBase (underlyingPath s filename)) fi)

/-- ReadDir translates, delegates, and rewrites each entry's name with
strings.Replace(name, translatedPath, "", 1). -/
def readDir (s : SubdirFs σ) (path : String) : Except Err (List FileInfo) :=
  match s.underlying.readDir (underlyingPath s path) with
  | .error e => .error e
  | .ok fis =>
    .ok (fis.map fun fi =>
      newFileInfo (replaceFirst fi.name (underlyingPath s path) "") fi)

/-- Dir returns a new scoped filesystem over the same underlying filesystem,
based at the translated path. -/
def dir (s : SubdirFs σ) (path : String) : SubdirFs σ :=
  New s.underlying (underlyingPath s path)

/-- Symlink requires the optional capability; a missing capability returns
the sentinel error without touching the state.  An absolute oldname is
rewritten to separator + underlyingPath(oldname); a relative oldname passes
through; newname is always translated. -/
def symlink (s : SubdirFs σ) (oldname newname : String) (st : σ) :
    Except Err Unit × σ :=
  match s.underlying.symlinker with
  | none => (.error .symlinkNotSupported, st)
  | some sl =>
    sl.symlink
      (if goIsAbs oldname then "/" ++ underlyingPath s oldname else oldname)
      (underlyingPath s newname) st

/-- The target post-processing of Readlink: a relative target is returned
unchanged; an absolute target is re-rooted through
filepath.Rel(separator + base, target), whose failure propagates. -/
def rerootTarget (s : SubdirFs σ) (target : String) : Except Err String :=
  if goIsAbs target then
    match goRelE ("/" ++ s.base) target with
    | .error e => .error e
    | .ok rel => .ok ("/" ++ rel)
  else .ok target

/-- Readlink requires the optional capability; a missing capability returns
the sentinel error without touching the state.  On success of the underlying
readlink the target is post-processed by `rerootTarget`. -/
def readlink (s : SubdirFs σ) (name : String) (st : σ) : Except Err String × σ :=
  match s.underlying.symlinker with
  | none => (.error .symlinkNotSupported, st)
  | some sl =>
    match sl.readlink (underlyingPath s name) st with
    | (.error e, st2) => (.error e, st2)
    | (.ok target, st2) => (rerootTarget s target, st2)

end SubdirFs

/-- Follows the spec's words (§4.1), for comparison with the code's
`replaceFirst` rewrite: strip the prefix only when it is a true path-prefix
of the name (the name equals the prefix, or continues with a separator right
after it); otherwise leave the name unchanged. -/
def specExactPathStrip (name pfx : String) : String :=
  if pfx.data.isPrefixOf name.data ∧
      ((name.data.drop pfx.data.length) = [] ∨
        (name.data.drop pfx.data.length).head? = some '/') then
    ⟨name.data.drop pfx.data.length⟩
  else name

/-- A list of path segments is regular when every segment is nonempty, is not
"." or "..", and contains no separator. -/
@[reducible]
def RegSegs (L : List (List Char)) : Prop :=
  ∀ s ∈ L, s ≠ [] ∧ s ≠ ['.'] ∧ s ≠ ['.', '.'] ∧ '/' ∉ s

/-- Invariant of the Clean stack: entries are nonempty and slash-free. -/
def StackOK (st : List (List Char)) : Prop :=
  ∀ x ∈ st, x ≠ [] ∧ '/' ∉ x

/-- The last raw slash-separated segment of a string (before any cleaning). -/
def lastRawSeg (p : String) : Option String :=
  ((splitSlash p.data).getLast?).map fun l => ⟨l⟩

/-- A fixed FileInfo payload used by the concrete witness filesystems. -/
def fi0 : FileInfo := ⟨"f", 3, 420, 17, false, 5⟩

/-- A fixed file handle used by the concrete witness filesystems. -/
def file0 : File := ⟨"base/d/tmp123", 1⟩

/-- A concrete underlying filesystem (no symlink capability) whose operations
all succeed; used by witnesses. -/
def okUnder : Filesystem Unit :=
  { create := fun _ => .ok file0
    openf := fun _ => .ok file0
    openFile := fun _ _ _ => .ok file0
    tempFile := fun _ _ => .ok file0
    rename := fun _ _ => .ok ()
    remove := fun _ => .ok ()
    mkdirAll := fun _ _ => .ok ()
    stat := fun _ => .ok fi0
    readDir := fun _ => .ok [fi0]
    join := goJoin
    symlinker := none }

/-- A symlink capability that stores the last created target verbatim and
returns it from readlink. -/
def slStore : SymlinkerOps (Option String) :=
  { symlink := fun o _ _ => (.ok (), some o)
    readlink := fun _ st =>
      match st with
      | some t => (.ok t, some t)
      | none => (.error .notFound, none) }

/-- A concrete underlying filesystem with the verbatim symlink capability. -/
def underSL : Filesystem (Option String) :=
  { create := fun _ => .ok file0
    openf := fun _ => .ok file0
    openFile := fun _ _ _ => .ok file0
    tempFile := fun _ _ => .ok file0
    rename := fun _ _ => .ok ()
    remove := fun _ => .ok ()
    mkdirAll := fun _ _ => .ok ()
    stat := fun _ => .ok fi0
    readDir := fun _ => .ok [fi0]
    join := goJoin
    symlinker := some slStore }

/-- The view over `underSL` based at "b"; used by symlink-related witnesses. -/
def s6 : SubdirFs (Option String) := ⟨underSL, "b"⟩

/-- The entry name returned by the underlying listing in the C1 scenario. -/
def projFi : FileInfo := ⟨"project-other", 3, 420, 17, false, 5⟩

/-- An underlying filesystem whose listing holds an entry whose name merely
contains the translated prefix text ("project") as a substring. -/
def c1Under : Filesystem Unit :=
  { create := fun _ => .ok file0
    openf := fun _ => .ok file0
    openFile := fun _ _ _ => .ok file0
    tempFile := fun _ _ => .ok file0
    rename := fun _ _ => .ok ()
    remove := fun _ => .ok ()
    mkdirAll := fun _ _ => .ok ()
    stat := fun _ => .ok projFi
    readDir := fun _ => .ok [projFi]
    join := goJoin
    symlinker := none }

/-- The view over `c1Under` based at "project". -/
def c1S : SubdirFs Unit := ⟨c1Under, "project"⟩

/-- The view over `okUnder` based at "qux"; used for C2. -/
def s2c : SubdirFs Unit := ⟨okUnder, "qux"⟩

/-- The view over `okUnder` based at "zap"; shows base-dependence for C2. -/
def s2c2 : SubdirFs Unit := ⟨okUnder, "zap"⟩

/-- A symlink capability that always fails with `.other 7`. -/
def errSL : SymlinkerOps Unit :=
  { symlink := fun _ _ st => (.error (.other 7), st)
    readlink := fun _ st => (.error (.other 7), st) }

/-- An underlying filesystem whose every operation fails with `.other 7`;
used by the C9 witness. -/
def errUnder : Filesystem Unit :=
  { create := fun _ => .error (.other 7)
    openf := fun _ => .error (.other 7)
    openFile := fun _ _ _ => .error (.other 7)
    tempFile := fun _ _ => .error (.other 7)
    rename := fun _ _ => .error (.other 7)
    remove := fun _ => .error (.other 7)
    mkdirAll := fun _ _ => .error (.other 7)
    stat := fun _ => .error (.other 7)
    readDir := fun _ => .error (.other 7)
    join := goJoin
    symlinker := some errSL }

/-- The view over `errUnder` based at "b"; used by the C9 witness. -/
def s9 : SubdirFs Unit := ⟨errUnder, "b"⟩

/-- The view over `okUnder` based at "b"; used by several witnesses. -/
def sOk : SubdirFs Unit := ⟨okUnder, "b"⟩

/-! ### Basic helper lemmas -/

theorem strExt {a b : String} (h : a.data = b.data) : a = b := by
  cases a; cases b
  exact congrArg String.mk h

theorem strDataAppend (a b : String) : (a ++ b).data = a.data ++ b.data := by
  cases a; cases b; rfl

theorem splitSlash_ne_nil (cs : List Char) : splitSlash cs ≠ [] := by
  cases cs with
  | nil => simp [splitSlash]
  | cons c cs =>
    simp only [splitSlash]
    split
    · simp
    · split <;> simp

theorem splitSlash_append (a b : List Char) :
    splitSlash (a ++ '/' :: b) = splitSlash a ++ splitSlash b := by
  induction a with
  | nil => simp [splitSlash]
  | cons c cs ih =>
    by_cases h : c = '/'
    · subst h
      simp [splitSlash, ih]
    · simp only [List.cons_append, splitSlash, if_neg h]
      rw [show cs.append ('/' :: b) = cs ++ '/' :: b from rfl, ih]
      rcases hs : splitSlash cs with _ | ⟨s, rest⟩
      · exact absurd hs (splitSlash_ne_nil cs)
      · simp

theorem mem_splitSlash_no_slash {cs x : List Char}
    (hx : x ∈ splitSlash cs) : '/' ∉ x := by
  induction cs generalizing x with
  | nil =>
    simp [splitSlash] at hx
    subst hx; simp
  | cons c cs ih =>
    simp only [splitSlash] at hx
    by_cases h : c = '/'
    · rw [if_pos h] at hx
      rcases List.mem_cons.mp hx with hx | hx
      · subst hx; simp
      · exact ih hx
    · rw [if_neg h] at hx
      rcases hs : splitSlash cs with _ | ⟨s, rest⟩
      · exact absurd hs (splitSlash_ne_nil cs)
      · rw [hs] at hx
        rcases List.mem_cons.mp hx with hx | hx
        · subst hx
          intro hmem
          rcases List.mem_cons.mp hmem with h1 | h1
          · exact h h1.symm
          · exact ih (hs ▸ List.mem_cons_self s rest) h1
        · exact ih (by rw [hs]; exact List.mem_cons_of_mem s hx)

theorem exists_append_of_getLast? {α : Type} {l : List α} {x : α}
    (h : l.getLast? = some x) : ∃ S, l = S ++ [x] := by
  induction l with
  | nil => simp at h
  | cons a t ih =>
    cases t with
    | nil =>
      simp [List.getLast?] at h
      exact ⟨[], by simp [h]⟩
    | cons b t2 =>
      rw [List.getLast?_cons_cons] at h
      obtain ⟨S, hS⟩ := ih h
      exact ⟨a :: S, by simp [hS]⟩

theorem getLast?_append_right {α : Type} (l₁ : List α) {l₂ : List α} {x : α}
    (h : l₂.getLast? = some x) : (l₁ ++ l₂).getLast? = some x := by
  obtain ⟨S, hS⟩ := exists_append_of_getLast? h
  subst hS
  rw [← List.append_assoc]
  exact List.getLast?_concat _

theorem foldl_cleanPush_concat (r : Bool) (st S : List (List Char))
    {x : List Char} (h1 : x ≠ []) (h2 : x ≠ ['.']) (h3 : x ≠ ['.', '.']) :
    List.foldl (cleanPush r) st (S ++ [x]) = x :: List.foldl (cleanPush r) st S := by
  rw [List.foldl_append]
  simp [cleanPush, h1, h2, h3]

theorem foldl_cleanPush_regular (r : Bool) {L : List (List Char)}
    (h : ∀ s ∈ L, s ≠ [] ∧ s ≠ ['.'] ∧ s ≠ ['.', '.']) (st : List (List Char)) :
    List.foldl (cleanPush r) st L = L.reverse ++ st := by
  induction L generalizing st with
  | nil => simp
  | cons a t ih =>
    have ha := h a (List.mem_cons_self a t)
    rw [List.foldl_cons]
    have hp : cleanPush r st a = a :: st := by
      simp [cleanPush, ha.1, ha.2.1, ha.2.2]
    rw [hp, ih (fun s hs => h s (List.mem_cons_of_mem a hs))]
    simp

theorem stackOK_cleanPush (r : Bool) {st : List (List Char)} (hst : StackOK st)
    {a : List Char} (ha : '/' ∉ a) : StackOK (cleanPush r st a) := by
  by_cases h1 : a = [] ∨ a = ['.']
  · simpa only [cleanPush, if_pos h1] using hst
  · by_cases h2 : a = ['.', '.']
    · simp only [cleanPush, if_neg h1, if_pos h2]
      by_cases hnil : st = []
      · rw [if_pos hnil]
        cases r with
        | false =>
          intro x hx
          simp at hx
          subst hx
          exact ⟨by simp, by decide⟩
        | true =>
          intro x hx
          simp at hx
      · rw [if_neg hnil]
        by_cases h3 : st.head? = some ['.', '.']
        · rw [if_pos h3]
          intro x hx
          rcases List.mem_cons.mp hx with h | h
          · subst h; exact ⟨by simp, by decide⟩
          · exact hst x h
        · rw [if_neg h3]
          intro x hx
          rcases st with _ | ⟨top, rest⟩
          · exact absurd rfl hnil
          · exact hst x (List.mem_cons_of_mem top hx)
    · simp only [cleanPush, if_neg h1, if_neg h2]
      push_neg at h1
      intro x hx
      rcases List.mem_cons.mp hx with h | h
      · subst h; exact ⟨h1.1, ha⟩
      · exact hst x h

theorem stackOK_foldl (r : Bool) {L : List (List Char)}
    (hL : ∀ s ∈ L, '/' ∉ s) {st : List (List Char)} (hst : StackOK st) :
    StackOK (List.foldl (cleanPush r) st L) := by
  induction L generalizing st with
  | nil => exact hst
  | cons a t ih =>
    rw [List.foldl_cons]
    exact ih (fun s hs => hL s (List.mem_cons_of_mem a hs))
      (stackOK_cleanPush r hst (hL a (List.mem_cons_self a t)))

theorem intercalateSlash_concat {L : List (List Char)} (h : L ≠ []) (x : List Char) :
    intercalateSlash (L ++ [x]) = intercalateSlash L ++ '/' :: x := by
  induction L with
  | nil => exact absurd rfl h
  | cons a t ih =>
    cases t with
    | nil => simp [intercalateSlash]
    | cons b t2 =>
      have hrec := ih (by simp)
      simp only [List.cons_append] at hrec ⊢
      rw [intercalateSlash, intercalateSlash, hrec]
      simp [List.append_assoc]

theorem takeWhile_no_slash_append {u : List Char} (hu : ∀ c ∈ u, c ≠ '/')
    (v : List Char) :
    (u ++ v).takeWhile (fun c => decide (c ≠ '/')) =
      u ++ v.takeWhile (fun c => decide (c ≠ '/')) := by
  induction u with
  | nil => simp
  | cons a t ih =>
    have ha := hu a (List.mem_cons_self a t)
    have ih' := ih (fun c hc => hu c (List.mem_cons_of_mem a hc))
    simp only [List.cons_append, List.takeWhile_cons]
    simp only [ha, decide_not, decide_eq_true_eq]
    simp [ha]
    simpa using ih'

theorem goBaseL_after_slash (w : List Char) {x : List Char} (hx : x ≠ [])
    (hxs : '/' ∉ x) : goBaseL (w ++ '/' :: x) = x := by
  have hne : w ++ '/' :: x ≠ [] := by simp
  rw [goBaseL, if_neg hne]
  have hrev : (w ++ '/' :: x).reverse = x.reverse ++ '/' :: w.reverse := by
    simp
  rw [hrev]
  have hdrop : (x.reverse ++ '/' :: w.reverse).dropWhile (fun c => decide (c = '/'))
      = x.reverse ++ '/' :: w.reverse := by
    rcases hxr : x.reverse with _ | ⟨c, t⟩
    · exact absurd (by simpa using hxr) hx
    · have hc : c ∈ x := by
        have : c ∈ x.reverse := by rw [hxr]; exact List.mem_cons_self c t
        simpa using this
      have hcne : ¬ (c = '/') := fun h => hxs (h ▸ hc)
      simp [List.dropWhile_cons, hcne]
  rw [hdrop]
  have hmem : ∀ c ∈ x.reverse, c ≠ '/' := by
    intro c hc h
    exact hxs (h ▸ (List.mem_reverse.mp hc))
  rw [takeWhile_no_slash_append hmem]
  have : ('/' :: w.reverse).takeWhile (fun c => decide (c ≠ '/')) = [] := by
    simp [List.takeWhile_cons]
  rw [this, List.append_nil, baseFmt,
    if_neg (fun h => hx (by simpa using h))]
  simp

theorem goBaseL_self {x : List Char} (hx : x ≠ []) (hxs : '/' ∉ x) :
    goBaseL x = x := by
  rw [goBaseL, if_neg hx]
  have hmem : ∀ c ∈ x.reverse, c ≠ '/' := by
    intro c hc h
    exact hxs (h ▸ (List.mem_reverse.mp hc))
  have hdrop : x.reverse.dropWhile (fun c => decide (c = '/')) = x.reverse := by
    rcases hxr : x.reverse with _ | ⟨c, t⟩
    · exact absurd (by simpa using hxr) hx
    · have hcmem : c ∈ x.reverse := by rw [hxr]; exact List.mem_cons_self c t
      have hc : ¬ (c = '/') := hmem c hcmem
      simp [List.dropWhile_cons, hc]
  rw [hdrop]
  have htake : x.reverse.takeWhile (fun c => decide (c ≠ '/')) = x.reverse := by
    have := takeWhile_no_slash_append hmem []
    simpa using this
  rw [htake, baseFmt, if_neg (fun h => hx (by simpa using h))]
  simp

theorem goBaseL_cleanFmt_single (r : Bool) {x : List Char}
    (h1 : x ≠ []) (hxs : '/' ∉ x) : goBaseL (cleanFmt r x) = x := by
  cases r with
  | false =>
    show goBaseL (if x = [] then ['.'] else x) = x
    rw [if_neg h1]
    exact goBaseL_self h1 hxs
  | true =>
    show goBaseL (if x = [] then ['/'] else '/' :: x) = x
    rw [if_neg h1]
    exact goBaseL_after_slash [] h1 hxs

theorem goBaseL_cleanFmt_append (r : Bool) (w : List Char) {x : List Char}
    (h1 : x ≠ []) (hxs : '/' ∉ x) :
    goBaseL (cleanFmt r (w ++ '/' :: x)) = x := by
  have hbody : w ++ '/' :: x ≠ [] := by simp
  cases r with
  | false =>
    show goBaseL (if w ++ '/' :: x = [] then ['.'] else w ++ '/' :: x) = x
    rw [if_neg hbody]
    exact goBaseL_after_slash w h1 hxs
  | true =>
    show goBaseL (if w ++ '/' :: x = [] then ['/'] else '/' :: (w ++ '/' :: x)) = x
    rw [if_neg hbody]
    have hsh : '/' :: (w ++ '/' :: x) = ('/' :: w) ++ '/' :: x := by simp
    rw [hsh]
    exact goBaseL_after_slash ('/' :: w) h1 hxs

theorem goBase_clean_last {cs x : List Char}
    (h : (splitSlash cs).getLast? = some x)
    (h1 : x ≠ []) (h2 : x ≠ ['.']) (h3 : x ≠ ['.', '.']) :
    goBaseL (goCleanL cs) = x := by
  obtain ⟨S, hS⟩ := exists_append_of_getLast? h
  have hxmem : x ∈ splitSlash cs := by rw [hS]; simp
  have hxs : '/' ∉ x := mem_splitSlash_no_slash hxmem
  have hcs : cs ≠ [] := by
    intro hnil
    rw [hnil, show splitSlash [] = [[]] from rfl] at hS
    rcases S with _ | ⟨a, S'⟩
    · exact h1 (by simpa using hS.symm)
    · have := congrArg List.length hS
      simp at this
  rw [goCleanL, if_neg hcs, hS, foldl_cleanPush_concat _ _ _ h1 h2 h3,
    List.reverse_cons]
  rcases hst : (List.foldl (cleanPush (decide (cs.head? = some '/'))) [] S).reverse
      with _ | ⟨w0, ws⟩
  · rw [List.nil_append]
    exact goBaseL_cleanFmt_single _ h1 hxs
  · rw [intercalateSlash_concat (by simp) x]
    exact goBaseL_cleanFmt_append _ _ h1 hxs

theorem goBaseL_goJoinL_last {B P x : List Char}
    (h : (splitSlash P).getLast? = some x)
    (h1 : x ≠ []) (h2 : x ≠ ['.']) (h3 : x ≠ ['.', '.']) :
    goBaseL (goJoinL [B, P]) = x := by
  by_cases hB : B = []
  · subst hB
    by_cases hP : P = []
    · subst hP
      rw [show splitSlash ([] : List Char) = [[]] from rfl] at h
      simp [List.getLast?] at h
      exact absurd h h1
    · simp only [goJoinL]
      have hdw : (([[], P] : List (List Char)).dropWhile fun e => decide (e = []))
          = [P] := by
        simp [List.dropWhile_cons, hP]
      rw [hdw, if_neg (by simp)]
      show goBaseL (goCleanL P) = x
      exact goBase_clean_last h h1 h2 h3
  · simp only [goJoinL]
    have hdw : (([B, P] : List (List Char)).dropWhile fun e => decide (e = []))
        = [B, P] := by
      simp [List.dropWhile_cons, hB]
    rw [hdw, if_neg (by simp)]
    show goBaseL (goCleanL (B ++ '/' :: P)) = x
    refine goBase_clean_last ?_ h1 h2 h3
    rw [splitSlash_append]
    exact getLast?_append_right _ h

/-- C2 (amended): for every view-relative path p whose last raw
slash-separated segment is a regular name x (nonempty, not "." and not ".."),
a succeeding Stat reports exactly x as the returned metadata's name,
independently of the base, provided the underlying join is filepath.Join.
(For p = "" or p = "/" the code instead reports the last segment of base;
see the counterexample.) -/
theorem C2_stat_reports_last_segment {σ : Type} (s : SubdirFs σ) (p x : String)
    (fi : FileInfo)
    (hj : s.underlying.join = goJoin)
    (hx : lastRawSeg p = some x)
    (h1 : x ≠ "") (h2 : x ≠ ".") (h3 : x ≠ "..")
    (hs : s.underlying.stat (SubdirFs.underlyingPath s p) = .ok fi) :
    ∃ r, SubdirFs.stat s p = .ok r ∧ r.name = x := by
  refine ⟨newFileInfo (goBase (SubdirFs.underlyingPath s p)) fi, ?_, ?_⟩
  · simp only [SubdirFs.stat, hs]
  · show goBase (SubdirFs.underlyingPath s p) = x
    have hup : SubdirFs.underlyingPath s p = goJoin [s.base, p] := by
      simp only [SubdirFs.underlyingPath, SubdirFs.join, SubdirFs.Base, hj]
    rw [hup]
    simp only [lastRawSeg] at hx
    obtain ⟨xs, hgl, hmk⟩ := Option.map_eq_some'.mp hx
    have hxd : x.data = xs := by rw [← hmk]
    have e1 : xs ≠ [] := fun hh => h1 (by apply strExt; rw [hxd, hh])
    have e2 : xs ≠ ['.'] := fun hh => h2 (by apply strExt; rw [hxd, hh])
    have e3 : xs ≠ ['.', '.'] := fun hh => h3 (by apply strExt; rw [hxd, hh])
    apply strExt
    show goBaseL (goJoinL [s.base.data, p.data]) = x.data
    rw [hxd]
    exact goBaseL_goJoinL_last hgl e1 e2 e3

/-- C2 witness: through a base "b", Stat of "foo/bar" reports name "bar". -/
theorem C2_witness :
    ∃ r, SubdirFs.stat sOk "foo/bar" = .ok r ∧ r.name = "bar" :=
  C2_stat_reports_last_segment sOk "foo/bar" "bar" fi0 rfl (by decide)
    (by decide) (by decide) (by decide) rfl

/-- C2 counterexample: at p = "" the reported name is the last segment of
the base ("qux", and "zap" for a different base), which is not a segment of p
("" has no segment; under any reading its last segment would be "", "." or
"/"), and which depends on the base. -/
theorem C2_counterexample :
    SubdirFs.stat s2c "" = .ok (newFileInfo "qux" fi0) ∧
    SubdirFs.stat s2c2 "" = .ok (newFileInfo "zap" fi0) ∧
    ("qux" : String) ≠ "" ∧ ("qux" : String) ≠ "." ∧ ("qux" : String) ≠ "/" ∧
    ("qux" : String) ≠ "zap" :=
  ⟨rfl, rfl, by decide, by decide, by decide, by decide⟩

theorem splitSlash_no_slash_self {s : List Char} (h : '/' ∉ s) :
    splitSlash s = [s] := by
  induction s with
  | nil => rfl
  | cons c t ih =>
    have hc : ¬ (c = '/') := fun hh => h (List.mem_cons.mpr (Or.inl hh.symm))
    simp only [splitSlash, if_neg hc]
    rw [ih (fun hm => h (List.mem_cons_of_mem c hm))]

theorem splitSlash_intercalate {L : List (List Char)} (hne : L ≠ [])
    (h : ∀ s ∈ L, '/' ∉ s) : splitSlash (intercalateSlash L) = L := by
  induction L with
  | nil => exact absurd rfl hne
  | cons s t ih =>
    rcases t with _ | ⟨u, v⟩
    · exact splitSlash_no_slash_self (h s (List.mem_cons_self s []))
    · show splitSlash (s ++ '/' :: intercalateSlash (u :: v)) = s :: u :: v
      rw [splitSlash_append,
        splitSlash_no_slash_self (h s (List.mem_cons_self s _)),
        ih (by simp) (fun w hw => h w (List.mem_cons_of_mem s hw))]
      rfl

theorem intercalateSlash_ne_nil {L : List (List Char)} (hne : L ≠ [])
    (h : ∀ s ∈ L, s ≠ []) : intercalateSlash L ≠ [] := by
  rcases L with _ | ⟨s, t⟩
  · exact absurd rfl hne
  · rcases t with _ | ⟨u, v⟩
    · exact h s (List.mem_cons_self s [])
    · show s ++ '/' :: intercalateSlash (u :: v) ≠ []
      simp

theorem intercalateSlash_head (s : List Char) (r : List (List Char)) :
    ∃ w, intercalateSlash (s :: r) = s ++ w := by
  rcases r with _ | ⟨u, v⟩
  · exact ⟨[], by simp [intercalateSlash]⟩
  · exact ⟨'/' :: intercalateSlash (u :: v), rfl⟩

theorem head?_append_left {α : Type} {l : List α} (hl : l ≠ []) (l' : List α) :
    (l ++ l').head? = l.head? := by
  rcases l with _ | ⟨a, t⟩
  · exact absurd rfl hl
  · rfl

theorem filter_ne_nil_all {L : List (List Char)} (h : ∀ s ∈ L, s ≠ []) :
    L.filter (fun s => decide (s ≠ [])) = L := by
  induction L with
  | nil => rfl
  | cons a t ih =>
    rw [List.filter_cons]
    have ha : decide (a ≠ []) = true := by simp [h a (List.mem_cons_self a t)]
    rw [if_pos ha, ih (fun s hs => h s (List.mem_cons_of_mem a hs))]

theorem relSegs_self_append (bs ts : List (List Char)) :
    relSegs bs (bs ++ ts) = mkRel [] ts := by
  induction bs with
  | nil => rcases ts with _ | ⟨t, ts'⟩ <;> rfl
  | cons b bs ih =>
    show relSegs (b :: bs) (b :: (bs ++ ts)) = mkRel [] ts
    simp only [relSegs, if_pos rfl]
    exact ih

theorem mkRel_nil (ts : List (List Char)) :
    mkRel [] ts = some (intercalateSlash ts) := by
  rw [mkRel, if_neg (by simp)]
  rfl

theorem clean_slash_inter {L : List (List Char)} (hreg : RegSegs L) (hne : L ≠ []) :
    goCleanL ('/' :: intercalateSlash L) = '/' :: intercalateSlash L := by
  have hXne : intercalateSlash L ≠ [] :=
    intercalateSlash_ne_nil hne (fun s hs => (hreg s hs).1)
  rw [goCleanL, if_neg (by simp)]
  have hr : decide ((('/' :: intercalateSlash L : List Char)).head? = some '/')
      = true := by simp
  rw [hr]
  rw [show splitSlash ('/' :: intercalateSlash L)
      = [] :: splitSlash (intercalateSlash L) from by simp [splitSlash]]
  rw [splitSlash_intercalate hne (fun s hs => (hreg s hs).2.2.2)]
  rw [List.foldl_cons, show cleanPush true [] [] = [] from by simp [cleanPush]]
  rw [foldl_cleanPush_regular true
    (fun s hs => ⟨(hreg s hs).1, (hreg s hs).2.1, (hreg s hs).2.2.1⟩) []]
  rw [List.append_nil, List.reverse_reverse]
  show (if intercalateSlash L = [] then ['/'] else '/' :: intercalateSlash L)
      = '/' :: intercalateSlash L
  rw [if_neg hXne]

theorem clean_slash_slash_inter {L : List (List Char)} (hreg : RegSegs L)
    (hne : L ≠ []) :
    goCleanL ('/' :: '/' :: intercalateSlash L) = '/' :: intercalateSlash L := by
  have hXne : intercalateSlash L ≠ [] :=
    intercalateSlash_ne_nil hne (fun s hs => (hreg s hs).1)
  rw [goCleanL, if_neg (by simp)]
  have hr : decide ((('/' :: '/' :: intercalateSlash L : List Char)).head? = some '/')
      = true := by simp
  rw [hr]
  rw [show splitSlash ('/' :: '/' :: intercalateSlash L)
      = [] :: [] :: splitSlash (intercalateSlash L) from by simp [splitSlash]]
  rw [splitSlash_intercalate hne (fun s hs => (hreg s hs).2.2.2)]
  rw [List.foldl_cons, show cleanPush true [] [] = [] from by simp [cleanPush],
    List.foldl_cons, show cleanPush true [] [] = [] from by simp [cleanPush]]
  rw [foldl_cleanPush_regular true
    (fun s hs => ⟨(hreg s hs).1, (hreg s hs).2.1, (hreg s hs).2.2.1⟩) []]
  rw [List.append_nil, List.reverse_reverse]
  show (if intercalateSlash L = [] then ['/'] else '/' :: intercalateSlash L)
      = '/' :: intercalateSlash L
  rw [if_neg hXne]

theorem clean_root_single : goCleanL ['/'] = ['/'] := by decide

theorem clean_relative_join {bs xs : List (List Char)} (hb : RegSegs bs)
    (hx : RegSegs xs) (hbne : bs ≠ []) (hxne : xs ≠ []) :
    goCleanL (intercalateSlash bs ++ '/' :: '/' :: intercalateSlash xs)
      = intercalateSlash (bs ++ xs) := by
  obtain ⟨b0, bs', rfl⟩ := List.exists_cons_of_ne_nil hbne
  have hb0 := hb b0 (List.mem_cons_self b0 bs')
  obtain ⟨c0, b0t, rfl⟩ := List.exists_cons_of_ne_nil hb0.1
  have hc0 : ¬ (c0 = '/') := fun hh => hb0.2.2.2 (List.mem_cons.mpr (Or.inl hh.symm))
  have hAne : intercalateSlash ((c0 :: b0t) :: bs') ≠ [] :=
    intercalateSlash_ne_nil (by simp) (fun s hs => (hb s hs).1)
  have hcne : intercalateSlash ((c0 :: b0t) :: bs')
      ++ '/' :: '/' :: intercalateSlash xs ≠ [] := by simp
  have hhead : (intercalateSlash ((c0 :: b0t) :: bs')
      ++ '/' :: '/' :: intercalateSlash xs).head? = some c0 := by
    obtain ⟨w, hw⟩ := intercalateSlash_head (c0 :: b0t) bs'
    rw [head?_append_left hAne, hw]
    rfl
  have hr : decide ((intercalateSlash ((c0 :: b0t) :: bs')
      ++ '/' :: '/' :: intercalateSlash xs).head? = some '/') = false := by
    rw [hhead]
    simp [hc0]
  rw [goCleanL, if_neg hcne, hr]
  have hsplit : splitSlash (intercalateSlash ((c0 :: b0t) :: bs')
      ++ '/' :: '/' :: intercalateSlash xs)
      = ((c0 :: b0t) :: bs') ++ ([] :: xs) := by
    rw [show (intercalateSlash ((c0 :: b0t) :: bs')
        ++ '/' :: '/' :: intercalateSlash xs : List Char)
        = intercalateSlash ((c0 :: b0t) :: bs')
          ++ '/' :: ('/' :: intercalateSlash xs) from rfl]
    rw [splitSlash_append]
    rw [splitSlash_intercalate (by simp) (fun s hs => (hb s hs).2.2.2)]
    rw [show splitSlash ('/' :: intercalateSlash xs)
        = [] :: splitSlash (intercalateSlash xs) from by simp [splitSlash]]
    rw [splitSlash_intercalate hxne (fun s hs => (hx s hs).2.2.2)]
  rw [hsplit, List.foldl_append]
  rw [foldl_cleanPush_regular false
    (fun s hs => ⟨(hb s hs).1, (hb s hs).2.1, (hb s hs).2.2.1⟩) []]
  rw [List.append_nil, List.foldl_cons]
  rw [show cleanPush false (((c0 :: b0t) :: bs').reverse) [] =
      ((c0 :: b0t) :: bs').reverse from by simp [cleanPush]]
  rw [foldl_cleanPush_regular false
    (fun s hs => ⟨(hx s hs).1, (hx s hs).2.1, (hx s hs).2.2.1⟩) _]
  rw [List.reverse_append, List.reverse_reverse, List.reverse_reverse]
  have hbodyne : intercalateSlash (((c0 :: b0t) :: bs') ++ xs) ≠ [] :=
    intercalateSlash_ne_nil (by simp)
      (fun s hs => ((List.mem_append.mp hs).elim (fun h => (hb s h).1)
        (fun h => (hx s h).1)))
  show (if intercalateSlash (((c0 :: b0t) :: bs') ++ xs) = [] then ['.']
      else intercalateSlash (((c0 :: b0t) :: bs') ++ xs))
      = intercalateSlash (((c0 :: b0t) :: bs') ++ xs)
  rw [if_neg hbodyne]

theorem goJoinL_nilbase {xs : List (List Char)} (hreg : RegSegs xs) (hne : xs ≠ []) :
    goJoinL [[], '/' :: intercalateSlash xs] = '/' :: intercalateSlash xs := by
  simp only [goJoinL]
  have hdw : (([[], '/' :: intercalateSlash xs] : List (List Char)).dropWhile
      fun e => decide (e = [])) = ['/' :: intercalateSlash xs] := by
    simp [List.dropWhile_cons]
  rw [hdw, if_neg (by simp)]
  show goCleanL ('/' :: intercalateSlash xs) = '/' :: intercalateSlash xs
  exact clean_slash_inter hreg hne

theorem goJoinL_consbase {bs xs : List (List Char)} (hb : RegSegs bs)
    (hx : RegSegs xs) (hbne : bs ≠ []) (hxne : xs ≠ []) :
    goJoinL [intercalateSlash bs, '/' :: intercalateSlash xs]
      = intercalateSlash (bs ++ xs) := by
  have hBne : intercalateSlash bs ≠ [] :=
    intercalateSlash_ne_nil hbne (fun s hs => (hb s hs).1)
  simp only [goJoinL]
  have hdw : (([intercalateSlash bs, '/' :: intercalateSlash xs] :
      List (List Char)).dropWhile fun e => decide (e = []))
      = [intercalateSlash bs, '/' :: intercalateSlash xs] := by
    simp [List.dropWhile_cons, hBne]
  rw [hdw, if_neg (by simp)]
  show goCleanL (intercalateSlash bs ++ '/' :: ('/' :: intercalateSlash xs))
      = intercalateSlash (bs ++ xs)
  exact clean_relative_join hb hx hbne hxne

theorem goRelL_inside {bs xs : List (List Char)} (T : List Char)
    (hb : RegSegs bs) (hx : RegSegs xs) (hxne : xs ≠ [])
    (hT : goCleanL T = '/' :: intercalateSlash (bs ++ xs)) :
    goRelL ('/' :: intercalateSlash bs) T = some (intercalateSlash xs) := by
  have hbx : RegSegs (bs ++ xs) := fun s hs =>
    (List.mem_append.mp hs).elim (hb s) (hx s)
  have hXne : intercalateSlash (bs ++ xs) ≠ [] :=
    intercalateSlash_ne_nil (by simp [hxne]) (fun s hs => (hbx s hs).1)
  have hbaseC : goCleanL ('/' :: intercalateSlash bs) = '/' :: intercalateSlash bs := by
    rcases bs with _ | ⟨b0, bs'⟩
    · exact clean_root_single
    · exact clean_slash_inter hb (by simp)
  have hneq : goCleanL ('/' :: intercalateSlash bs) ≠ goCleanL T := by
    rw [hbaseC, hT]
    intro hh
    simp only [List.cons.injEq] at hh
    have hAB : intercalateSlash bs = intercalateSlash (bs ++ xs) := hh.2
    rcases bs with _ | ⟨b0, bs'⟩
    · exact hXne (by simpa using hAB.symm)
    · have h1 := splitSlash_intercalate (L := b0 :: bs') (by simp)
        (fun s hs => (hb s hs).2.2.2)
      have h2 := splitSlash_intercalate (L := (b0 :: bs') ++ xs) (by simp)
        (fun s hs => (hbx s hs).2.2.2)
      rw [← hAB] at h2
      have h3 : (b0 :: bs' : List (List Char)) = (b0 :: bs') ++ xs := h1.symm.trans h2
      have h4 := congrArg List.length h3
      simp only [List.length_append] at h4
      have h5 : xs.length = 0 := by omega
      exact hxne (List.length_eq_zero.mp h5)
  rw [goRelL, if_neg hneq, hbaseC, hT]
  rw [if_neg (show ¬ (('/' :: intercalateSlash bs : List Char) = ['.']) by simp)]
  rw [if_neg (show ¬ ((decide ((('/' :: intercalateSlash bs : List Char)).head?
      = some '/') : Bool) ≠ (decide ((('/' :: intercalateSlash (bs ++ xs) :
      List Char)).head? = some '/') : Bool)) by simp)]
  have hsegs : ∀ (L : List (List Char)), RegSegs L →
      ((splitSlash ('/' :: intercalateSlash L)).filter fun s => decide (s ≠ []))
        = L := by
    intro L hL
    rcases L with _ | ⟨l0, L'⟩
    · decide
    · rw [show splitSlash ('/' :: intercalateSlash (l0 :: L'))
          = [] :: splitSlash (intercalateSlash (l0 :: L')) from by simp [splitSlash]]
      rw [splitSlash_intercalate (by simp) (fun s hs => (hL s hs).2.2.2)]
      rw [List.filter_cons, if_neg (by simp)]
      exact filter_ne_nil_all (fun s hs => (hL s hs).1)
  rw [hsegs bs hb, hsegs (bs ++ xs) hbx, relSegs_self_append, mkRel_nil]

/-- C6 (amended): for every base made of regular segments and every absolute
target t in cleaned form with at least one regular segment (no ".", "..",
or empty segments — such targets translate strictly inside base),
view.Symlink(t, link) followed by view.Readlink(link), against a
symlink-capable underlying filesystem that stores and returns link targets
verbatim, returns exactly t; for a non-cleaned absolute target the cleaned
form comes back instead (see the counterexample). -/
theorem C6_symlink_readlink_roundtrip {σ : Type} (s : SubdirFs σ)
    (sl : SymlinkerOps σ) (t link : String) (st : σ)
    (bs xs : List (List Char))
    (hj : s.underlying.join = goJoin)
    (hsl : s.underlying.symlinker = some sl)
    (hv : ∀ o n st0, (sl.symlink o n st0).1 = .ok () ∧
      sl.readlink n (sl.symlink o n st0).2 = (.ok o, (sl.symlink o n st0).2))
    (hb : s.base.data = intercalateSlash bs) (hbreg : RegSegs bs)
    (ht : t.data = '/' :: intercalateSlash xs) (hxreg : RegSegs xs)
    (hxne : xs ≠ []) :
    (SubdirFs.symlink s t link st).1 = .ok () ∧
    SubdirFs.readlink s link (SubdirFs.symlink s t link st).2
      = (.ok t, (SubdirFs.symlink s t link st).2) := by
  have habs : goIsAbs t = true := by simp [goIsAbs, ht]
  have hup : SubdirFs.underlyingPath s t = goJoin [s.base, t] := by
    simp only [SubdirFs.underlyingPath, SubdirFs.join, SubdirFs.Base, hj]
  have hsym : SubdirFs.symlink s t link st
      = sl.symlink ("/" ++ SubdirFs.underlyingPath s t)
          (SubdirFs.underlyingPath s link) st := by
    simp only [SubdirFs.symlink, hsl, habs, if_true]
  have hupd : (SubdirFs.underlyingPath s t).data
      = goJoinL [intercalateSlash bs, '/' :: intercalateSlash xs] := by
    rw [hup]
    show goJoinL [s.base.data, t.data] = _
    rw [hb, ht]
  have holdd : ("/" ++ SubdirFs.underlyingPath s t).data
      = '/' :: goJoinL [intercalateSlash bs, '/' :: intercalateSlash xs] := by
    rw [strDataAppend, hupd]
    rfl
  have hclean : goCleanL ('/' :: goJoinL [intercalateSlash bs,
      '/' :: intercalateSlash xs]) = '/' :: intercalateSlash (bs ++ xs) := by
    rcases bs with _ | ⟨b0, bs'⟩
    · show goCleanL ('/' :: goJoinL [[], '/' :: intercalateSlash xs])
          = '/' :: intercalateSlash xs
      rw [goJoinL_nilbase hxreg hxne]
      exact clean_slash_slash_inter hxreg hxne
    · rw [goJoinL_consbase hbreg hxreg (by simp) hxne]
      exact clean_slash_inter
        (fun w hw => (List.mem_append.mp hw).elim (hbreg w) (hxreg w)) (by simp)
  have hrel : goRelE ("/" ++ s.base) ("/" ++ SubdirFs.underlyingPath s t)
      = .ok ⟨intercalateSlash xs⟩ := by
    simp only [goRelE]
    rw [show ("/" ++ s.base).data = '/' :: intercalateSlash bs from by
      rw [strDataAppend, hb]; rfl]
    rw [holdd, goRelL_inside _ hbreg hxreg hxne hclean]
  have habs2 : goIsAbs ("/" ++ SubdirFs.underlyingPath s t) = true := by
    simp [goIsAbs, holdd]
  have hreroot : SubdirFs.rerootTarget s ("/" ++ SubdirFs.underlyingPath s t)
      = .ok t := by
    rw [SubdirFs.rerootTarget, if_pos habs2, hrel]
    exact congrArg Except.ok (strExt (by rw [strDataAppend, ht]; rfl))
  constructor
  · rw [hsym]
    exact (hv ("/" ++ SubdirFs.underlyingPath s t)
      (SubdirFs.underlyingPath s link) st).1
  · rw [hsym]
    have h2 := (hv ("/" ++ SubdirFs.underlyingPath s t)
      (SubdirFs.underlyingPath s link) st).2
    simp only [SubdirFs.readlink, hsl, h2]
    rw [hreroot]

/-- C6 witness: base "b" and cleaned absolute target "/x/y": Symlink then
Readlink over the verbatim-storing capability returns exactly "/x/y". -/
theorem C6_witness :
    (SubdirFs.symlink s6 "/x/y" "link" none).1 = .ok () ∧
    SubdirFs.readlink s6 "link" (SubdirFs.symlink s6 "/x/y" "link" none).2
      = (.ok "/x/y", (SubdirFs.symlink s6 "/x/y" "link" none).2) :=
  C6_symlink_readlink_roundtrip s6 slStore "/x/y" "link" none
    [['b']] [['x'], ['y']] rfl rfl
    (fun _ _ _ => ⟨rfl, rfl⟩)
    (by decide) (by decide) (by decide) (by decide) (by decide)

/-- C6 counterexample: with base "b" and the non-cleaned absolute target
"/x/./y" — whose translated form "b/x/y" lies inside the base — the round
trip returns the cleaned "/x/y", not a path equal to the original target. -/
theorem C6_counterexample :
    (SubdirFs.symlink s6 "/x/./y" "link" none).1 = .ok () ∧
    (SubdirFs.readlink s6 "link" (SubdirFs.symlink s6 "/x/./y" "link" none).2).1
      = .ok "/x/y" ∧
    SubdirFs.underlyingPath s6 "/x/./y" = "b/x/y" ∧
    ("/x/y" : String) ≠ "/x/./y" := by
  exact ⟨rfl, rfl, rfl, by decide⟩

/-- C1: code-bug evidence.  ReadDir rewrites each entry name with
strings.Replace(name, prefix, "", 1) — a substring replacement — so with
base "project" (translated prefix "project") an underlying entry named
"project-other" is corrupted to "-other", while the spec's exact
path-prefix stripping leaves the name unchanged, because "project" is not a
true path-prefix of "project-other". -/
theorem C1_readDir_substring_replacement_bug :
    SubdirFs.readDir c1S ""
      = .ok [{ name := "-other", size := 3, mode := 420, modTime := 17,
               isDir := false, sys := 5 }] ∧
    replaceFirst "project-other" "project" "" = "-other" ∧
    specExactPathStrip "project-other" "project" = "project-other" :=
  ⟨rfl, rfl, rfl⟩

/-- C3: without the symlink capability, Symlink and Readlink return the
dedicated sentinel error and leave the state untouched (the underlying
filesystem is never invoked), and the sentinel is distinct from every
underlying-error value, in particular from not-found. -/
theorem C3_capability_missing {σ : Type} (s : SubdirFs σ)
    (oldname newname name : String) (st : σ)
    (h : s.underlying.symlinker = none) :
    SubdirFs.symlink s oldname newname st = (.error .symlinkNotSupported, st) ∧
    SubdirFs.readlink s name st = (.error .symlinkNotSupported, st) ∧
    Err.symlinkNotSupported ≠ Err.notFound ∧
    Err.symlinkNotSupported ≠ Err.alreadyExists ∧
    (∀ k : Nat, Err.symlinkNotSupported ≠ Err.other k) ∧
    (∀ b t : String, Err.symlinkNotSupported ≠ Err.relErr b t) := by
  refine ⟨?_, ?_, by simp, by simp, fun k => by simp, fun b t => by simp⟩
  · simp only [SubdirFs.symlink, h]
  · simp only [SubdirFs.readlink, h]

/-- C3 witness: over the capability-free concrete filesystem. -/
theorem C3_witness :
    SubdirFs.symlink sOk "o" "n" () = (.error .symlinkNotSupported, ()) ∧
    SubdirFs.readlink sOk "x" () = (.error .symlinkNotSupported, ()) ∧
    Err.symlinkNotSupported ≠ Err.notFound ∧
    Err.symlinkNotSupported ≠ Err.alreadyExists ∧
    (∀ k : Nat, Err.symlinkNotSupported ≠ Err.other k) ∧
    (∀ b t : String, Err.symlinkNotSupported ≠ Err.relErr b t) :=
  C3_capability_missing sOk "o" "n" "x" () rfl

/-- C4: when Readlink succeeds against a symlink-capable underlying
filesystem that returned the target: a relative target is returned
unchanged, and an absolute target comes back as the separator followed by
filepath.Rel(separator + base, target). -/
theorem C4_readlink_target_translation {σ : Type} (s : SubdirFs σ)
    (sl : SymlinkerOps σ) (name target r : String) (st st2 : σ)
    (hsl : s.underlying.symlinker = some sl)
    (hr : sl.readlink (SubdirFs.underlyingPath s name) st = (.ok target, st2))
    (hok : (SubdirFs.readlink s name st).1 = .ok r) :
    (goIsAbs target = false → r = target) ∧
    (goIsAbs target = true →
      ∃ rel, goRelE ("/" ++ s.base) target = .ok rel ∧ r = "/" ++ rel) := by
  have hred : SubdirFs.readlink s name st = (SubdirFs.rerootTarget s target, st2) := by
    simp only [SubdirFs.readlink, hsl, hr]
  rw [hred] at hok
  constructor
  · intro hab
    rw [SubdirFs.rerootTarget, if_neg (by simp [hab])] at hok
    injection hok with hh
    exact hh.symm
  · intro hab
    rw [SubdirFs.rerootTarget, if_pos hab] at hok
    rcases hg : goRelE ("/" ++ s.base) target with e | rel
    · simp only [hg] at hok
      exact absurd hok (fun hh => Except.noConfusion hh)
    · simp only [hg] at hok
      injection hok with hh
      exact ⟨rel, rfl, hh.symm⟩

/-- C4 witness: base "b", underlying target "/b/x" re-roots to "/x". -/
theorem C4_witness :
    (goIsAbs "/b/x" = false → ("/x" : String) = "/b/x") ∧
    (goIsAbs "/b/x" = true →
      ∃ rel, goRelE ("/" ++ s6.base) "/b/x" = .ok rel ∧
        ("/x" : String) = "/" ++ rel) :=
  C4_readlink_target_translation s6 slStore "link" "/b/x" "/x"
    (some "/b/x") (some "/b/x") rfl rfl rfl

/-- C5: with the capability present, Symlink always translates newname, and
translates oldname to separator + underlyingPath(oldname) exactly when it is
absolute, passing a relative oldname through unchanged. -/
theorem C5_symlink_argument_translation {σ : Type} (s : SubdirFs σ)
    (sl : SymlinkerOps σ) (oldname newname : String) (st : σ)
    (hsl : s.underlying.symlinker = some sl) :
    (goIsAbs oldname = true →
      SubdirFs.symlink s oldname newname st
        = sl.symlink ("/" ++ SubdirFs.underlyingPath s oldname)
            (SubdirFs.underlyingPath s newname) st) ∧
    (goIsAbs oldname = false →
      SubdirFs.symlink s oldname newname st
        = sl.symlink oldname (SubdirFs.underlyingPath s newname) st) := by
  constructor
  · intro hab
    simp only [SubdirFs.symlink, hsl, hab, if_true]
  · intro hab
    simp [SubdirFs.symlink, hsl, hab]

/-- C5 witness: the absolute oldname "/o" is rewritten and "n" translated;
the relative oldname "o" is passed through with "n" translated. -/
theorem C5_witness :
    SubdirFs.symlink s6 "/o" "n" none
      = slStore.symlink ("/" ++ SubdirFs.underlyingPath s6 "/o")
          (SubdirFs.underlyingPath s6 "n") none ∧
    SubdirFs.symlink s6 "o" "n" none
      = slStore.symlink "o" (SubdirFs.underlyingPath s6 "n") none :=
  ⟨(C5_symlink_argument_translation s6 slStore "/o" "n" none rfl).1 rfl,
   (C5_symlink_argument_translation s6 slStore "o" "n" none rfl).2 rfl⟩

/-- C7: Dir returns a new scoped filesystem whose Base is the translated
path and whose underlying filesystem is the original one (not the view), so
nested Dir calls keep exactly one translation layer. -/
theorem C7_dir_flattens {σ : Type} (s : SubdirFs σ) (p q : String) :
    SubdirFs.Base (SubdirFs.dir s p) = SubdirFs.underlyingPath s p ∧
    (SubdirFs.dir s p).underlying = s.underlying ∧
    ((SubdirFs.dir s p).dir q).underlying = s.underlying ∧
    SubdirFs.Base ((SubdirFs.dir s p).dir q)
      = SubdirFs.underlyingPath (SubdirFs.dir s p) q :=
  ⟨rfl, rfl, rfl, rfl⟩

/-- C8: when the underlying TempFile succeeds with handle f, the view reports
Join(dir, Base(f.Filename())): the view-relative directory re-attached to the
underlying-chosen leaf name. -/
theorem C8_tempFile_reported_name {σ : Type} (s : SubdirFs σ)
    (dname pfx : String) (f : File)
    (h : s.underlying.tempFile (SubdirFs.underlyingPath s dname) pfx = .ok f) :
    ∃ g, SubdirFs.tempFile s dname pfx = .ok g ∧
      g.filename = SubdirFs.join s [dname, goBase f.filename] := by
  refine ⟨newFile s f (SubdirFs.join s [dname, goBase f.filename]), ?_, rfl⟩
  simp only [SubdirFs.tempFile, h]

/-- C8 witness: the underlying handle named "base/d/tmp123" is reported as
Join("d", "tmp123"). -/
theorem C8_witness :
    ∃ g, SubdirFs.tempFile sOk "d" "tmp" = .ok g ∧
      g.filename = SubdirFs.join sOk ["d", goBase file0.filename] :=
  C8_tempFile_reported_name sOk "d" "tmp" file0 rfl

/-- C9: every operation passes an underlying failure through unchanged, with
no result value attached; with the capability present so do Symlink and
Readlink.  (Only the two capability-absent cases synthesize a different
error; see C3.)  No operation retries or recovers locally. -/
theorem C9_error_passthrough {σ : Type} (s : SubdirFs σ) (e : Err)
    (fname dname pfx src dst rpath mname sname lname oname nname : String)
    (flag mode perm : Nat) (sl : SymlinkerOps σ) (st st2 : σ) :
    (s.underlying.create (SubdirFs.underlyingPath s fname) = .error e →
      SubdirFs.create s fname = .error e) ∧
    (s.underlying.openf (SubdirFs.underlyingPath s fname) = .error e →
      SubdirFs.openf s fname = .error e) ∧
    (s.underlying.openFile (SubdirFs.underlyingPath s fname) flag mode
        = .error e →
      SubdirFs.openFile s fname flag mode = .error e) ∧
    (s.underlying.tempFile (SubdirFs.underlyingPath s dname) pfx = .error e →
      SubdirFs.tempFile s dname pfx = .error e) ∧
    (s.underlying.rename (SubdirFs.underlyingPath s src)
        (SubdirFs.underlyingPath s dst) = .error e →
      SubdirFs.rename s src dst = .error e) ∧
    (s.underlying.remove (SubdirFs.underlyingPath s rpath) = .error e →
      SubdirFs.remove s rpath = .error e) ∧
    (s.underlying.mkdirAll (SubdirFs.join s [s.base, mname]) perm = .error e →
      SubdirFs.mkdirAll s mname perm = .error e) ∧
    (s.underlying.stat (SubdirFs.underlyingPath s sname) = .error e →
      SubdirFs.stat s sname = .error e) ∧
    (s.underlying.readDir (SubdirFs.underlyingPath s rpath) = .error e →
      SubdirFs.readDir s rpath = .error e) ∧
    (s.underlying.symlinker = some sl →
      sl.symlink (if goIsAbs oname then "/" ++ SubdirFs.underlyingPath s oname
          else oname) (SubdirFs.underlyingPath s nname) st = (.error e, st2) →
      SubdirFs.symlink s oname nname st = (.error e, st2)) ∧
    (s.underlying.symlinker = some sl →
      sl.readlink (SubdirFs.underlyingPath s lname) st = (.error e, st2) →
      SubdirFs.readlink s lname st = (.error e, st2)) := by
  refine ⟨?_, ?_, ?_, ?_, ?_, ?_, ?_, ?_, ?_, ?_, ?_⟩
  · intro h; simp only [SubdirFs.create, h]
  · intro h; simp only [SubdirFs.openf, h]
  · intro h; simp only [SubdirFs.openFile, h]
  · intro h; simp only [SubdirFs.tempFile, h]
  · intro h; simp only [SubdirFs.rename, h]
  · intro h; simp only [SubdirFs.remove, h]
  · intro h; simp only [SubdirFs.mkdirAll, h]
  · intro h; simp only [SubdirFs.stat, h]
  · intro h; simp only [SubdirFs.readDir, h]
  · intro hc h; simp only [SubdirFs.symlink, hc, h]
  · intro hc h; simp only [SubdirFs.readlink, hc, h]

/-- C9 witness: over the always-failing concrete filesystem, every scoped
operation returns exactly the underlying error. -/
theorem C9_witness :
    SubdirFs.create s9 "a" = .error (.other 7) ∧
    SubdirFs.openf s9 "a" = .error (.other 7) ∧
    SubdirFs.openFile s9 "a" 1 420 = .error (.other 7) ∧
    SubdirFs.tempFile s9 "d" "p" = .error (.other 7) ∧
    SubdirFs.rename s9 "s" "d2" = .error (.other 7) ∧
    SubdirFs.remove s9 "r" = .error (.other 7) ∧
    SubdirFs.mkdirAll s9 "m" 493 = .error (.other 7) ∧
    SubdirFs.stat s9 "st" = .error (.other 7) ∧
    SubdirFs.readDir s9 "r" = .error (.other 7) ∧
    SubdirFs.symlink s9 "o" "n" () = (.error (.other 7), ()) ∧
    SubdirFs.readlink s9 "l" () = (.error (.other 7), ()) := by
  have h := C9_error_passthrough s9 (.other 7) "a" "d" "p" "s" "d2" "r" "m"
    "st" "l" "o" "n" 1 420 493 errSL () ()
  exact ⟨h.1 rfl, h.2.1 rfl, h.2.2.1 rfl, h.2.2.2.1 rfl, h.2.2.2.2.1 rfl,
    h.2.2.2.2.2.1 rfl, h.2.2.2.2.2.2.1 rfl, h.2.2.2.2.2.2.2.1 rfl,
    h.2.2.2.2.2.2.2.2.1 rfl, h.2.2.2.2.2.2.2.2.2.1 rfl rfl,
    h.2.2.2.2.2.2.2.2.2.2 rfl rfl⟩

/-- C10: on a successful ReadDir the returned list has exactly the underlying
entries, in order: same length, and at each position the wrapper of the
corresponding underlying entry in which only the reported name differs
(all other attributes pass through; the name is the Replace rewrite). -/
theorem C10_readDir_frame {σ : Type} (s : SubdirFs σ) (p : String)
    (fis : List FileInfo)
    (h : s.underlying.readDir (SubdirFs.underlyingPath s p) = .ok fis) :
    ∃ out, SubdirFs.readDir s p = .ok out ∧ out.length = fis.length ∧
      ∀ (i : Nat) (h1 : i < out.length) (h2 : i < fis.length),
        (out.get ⟨i, h1⟩).size = (fis.get ⟨i, h2⟩).size ∧
        (out.get ⟨i, h1⟩).mode = (fis.get ⟨i, h2⟩).mode ∧
        (out.get ⟨i, h1⟩).modTime = (fis.get ⟨i, h2⟩).modTime ∧
        (out.get ⟨i, h1⟩).isDir = (fis.get ⟨i, h2⟩).isDir ∧
        (out.get ⟨i, h1⟩).sys = (fis.get ⟨i, h2⟩).sys ∧
        (out.get ⟨i, h1⟩).name
          = replaceFirst (fis.get ⟨i, h2⟩).name
              (SubdirFs.underlyingPath s p) "" := by
  refine ⟨fis.map fun fi => newFileInfo
      (replaceFirst fi.name (SubdirFs.underlyingPath s p) "") fi, ?_, by simp, ?_⟩
  · simp only [SubdirFs.readDir, h]
  · intro i h1 h2
    have hget : (fis.map fun fi => newFileInfo
        (replaceFirst fi.name (SubdirFs.underlyingPath s p) "") fi).get ⟨i, h1⟩
        = newFileInfo (replaceFirst (fis.get ⟨i, h2⟩).name
            (SubdirFs.underlyingPath s p) "") (fis.get ⟨i, h2⟩) := by
      simp [List.get_eq_getElem, List.getElem_map]
    rw [hget]
    exact ⟨rfl, rfl, rfl, rfl, rfl, rfl⟩

/-- C10 witness: a one-entry underlying listing maps to a one-entry scoped
listing with every attribute but the name preserved. -/
theorem C10_witness :
    ∃ out, SubdirFs.readDir sOk "x" = .ok out ∧ out.length = [fi0].length ∧
      ∀ (i : Nat) (h1 : i < out.length) (h2 : i < [fi0].length),
        (out.get ⟨i, h1⟩).size = ([fi0].get ⟨i, h2⟩).size ∧
        (out.get ⟨i, h1⟩).mode = ([fi0].get ⟨i, h2⟩).mode ∧
        (out.get ⟨i, h1⟩).modTime = ([fi0].get ⟨i, h2⟩).modTime ∧
        (out.get ⟨i, h1⟩).isDir = ([fi0].get ⟨i, h2⟩).isDir ∧
        (out.get ⟨i, h1⟩).sys = ([fi0].get ⟨i, h2⟩).sys ∧
        (out.get ⟨i, h1⟩).name
          = replaceFirst ([fi0].get ⟨i, h2⟩).name
              (SubdirFs.underlyingPath sOk "x") "" :=
  C10_readDir_frame sOk "x" [fi0] rfl
